import Mathlib

/-!
Verification of the ordinal-topology analytics engine.

The engine (src/pages/RankingPage.tsx and the useAnalytics hook) transforms a
list of participants and a list of ordinal ballots into social-choice metrics.
This file gives a shallow embedding of the relevant computation functions and
proves properties about them.  JavaScript numbers are modelled by `ℚ` (exact
arithmetic), integer ranks by `Int` (the rank sentinel is `-1`), counts by `ℕ`.
JavaScript `Record<string, T>` objects keyed by participant id are modelled as
association lists in insertion order; under the data-model invariant that
participant ids are unique this coincides with the JS object semantics.
-/

/-- `Participant` from src/types: `{id, name}`. -/
structure Participant where
  id : String
  name : String
deriving Repr, DecidableEq

/-- `Ballot` from src/types: `{voterId, ranking}`. -/
structure Ballot where
  voterId : String
  ranking : List String
deriving Repr, DecidableEq

/-- `getRank(ballot, targetId)`: 1-based position of `targetId` in
`ballot.ranking` (via `Array.indexOf`), or `-1` if not found. -/
def getRank (ballot : Ballot) (targetId : String) : Int :=
  match ballot.ranking.findIdx? (fun x => x == targetId) with
  | none => -1
  | some idx => (idx : Int) + 1

/-- `bordaPoints(rank, n) = n - rank`. -/
def bordaPoints (rank : Int) (n : Int) : Int := n - rank

/-- `getIds(participants)`. -/
def getIds (participants : List Participant) : List String :=
  participants.map (fun p => p.id)

/-- Number of ballots in which `idI` is ranked strictly above `idJ`
(both present).  This is the value each cell of the pairwise matrix
accumulates to in `buildPairwiseMatrix`'s increment loop. -/
def prefersCount (ballots : List Ballot) (idI idJ : String) : ℕ :=
  ballots.countP (fun b =>
    decide (0 < getRank b idI ∧ 0 < getRank b idJ ∧ getRank b idI < getRank b idJ))

/-- `buildPairwiseMatrix(ballots, participants)`: n×n matrix,
`matrix[i][j]` = number of ballots preferring participant i over j;
diagonal stays 0 (the `i === j` continue). -/
def buildPairwiseMatrix (ballots : List Ballot) (participants : List Participant) :
    List (List ℕ) :=
  let ids := getIds participants
  (List.range participants.length).map (fun i =>
    (List.range participants.length).map (fun j =>
      if i = j then 0 else prefersCount ballots (ids.getD i "") (ids.getD j "")))

/-- `matrix[i][j]` access (in-bounds everywhere it is used by the code). -/
def mEntry (matrix : List (List ℕ)) (i j : ℕ) : ℕ :=
  (matrix.getD i []).getD j 0

/-- `computeBordaScores(ballots, participants)`: the JS `Record` keyed by id in
insertion (participants) order; each participant's score is the sum over
ballots of `n - rank` for ranks found (`rank > 0`), skipping the voter's own
entry. -/
def computeBordaScores (ballots : List Ballot) (participants : List Participant) :
    List (String × Int) :=
  let n : Int := participants.length
  participants.map (fun p =>
    (p.id, (ballots.map (fun b =>
      if b.voterId = p.id then 0
      else if 0 < getRank b p.id then bordaPoints (getRank b p.id) n else 0)).sum))

/-- `detectCondorcetWinner(matrix, participants, numBallots)`: first participant
`i` with `matrix[i][j] > numBallots/2` for every `j ≠ i`, else `null`. -/
def detectCondorcetWinner (matrix : List (List ℕ)) (participants : List Participant)
    (numBallots : ℕ) : Option String :=
  let n := participants.length
  let majority : ℚ := (numBallots : ℚ) / 2
  ((List.range n).find? (fun i =>
    (List.range n).all (fun j => j == i || decide (majority < (mEntry matrix i j : ℚ))))).map
    (fun i => (participants.getD i ⟨"", ""⟩).id)

/-- `findCondorcetCycles(matrix, participants, numBallots)`: for every ordered
triple of distinct indices `(a,b,c)` with `matrix[a][b] > majority`,
`matrix[b][c] > majority` and `matrix[c][a] > majority`, pushes
`[ids[a], ids[b], ids[c]]` (loop order a, then b, then c). -/
def findCondorcetCycles (matrix : List (List ℕ)) (participants : List Participant)
    (numBallots : ℕ) : List (List String) :=
  let n := participants.length
  let ids := getIds participants
  let majority : ℚ := (numBallots : ℚ) / 2
  (List.range n).flatMap (fun a =>
    (List.range n).flatMap (fun b =>
      if b = a ∨ ¬ (majority < (mEntry matrix a b : ℚ)) then []
      else (List.range n).filterMap (fun c =>
        if c = a ∨ c = b then none
        else if majority < (mEntry matrix b c : ℚ) ∧ majority < (mEntry matrix c a : ℚ)
        then some [ids.getD a "", ids.getD b "", ids.getD c ""]
        else none)))

/-- `computeKendallW(ballots, participants)`: Kendall's coefficient of
concordance with the clamp to [0,1]. -/
def computeKendallW (ballots : List Ballot) (participants : List Participant) : ℚ :=
  let n := participants.length
  let m := ballots.length
  if m < 2 ∨ n < 2 then 0
  else
    let ids := getIds participants
    let rankSums : List Int := (List.range n).map (fun j =>
      (ballots.map (fun b =>
        if 0 < getRank b (ids.getD j "") then getRank b (ids.getD j "") else 0)).sum)
    let meanRankSum : ℚ := ((m : ℚ) * ((n : ℚ) + 1)) / 2
    let S : ℚ := (rankSums.map (fun r => ((r : ℚ) - meanRankSum) ^ 2)).sum
    let W : ℚ := (12 * S) / ((m : ℚ) * (m : ℚ) * ((n : ℚ) ^ 3 - (n : ℚ)))
    max 0 (min 1 W)

/-- `computeCycleDensity(pairwiseMatrix, numBallots, n)`: fraction of unordered
triples `a < b < c` forming a strict-majority 3-cycle in either rotational
direction, over `n(n-1)(n-2)/6` triads. -/
def computeCycleDensity (matrix : List (List ℕ)) (numBallots : ℕ) (n : ℕ) : ℚ :=
  let majority : ℚ := (numBallots : ℚ) / 2
  let totalTriads : ℚ := ((n : ℚ) * ((n : ℚ) - 1) * ((n : ℚ) - 2)) / 6
  if totalTriads = 0 then 0
  else
    let wins : ℕ → ℕ → Bool := fun x y => decide (majority < (mEntry matrix x y : ℚ))
    let cycleCount : ℕ :=
      ((List.range n).flatMap (fun a =>
        ((List.range n).filter (fun b => a < b)).flatMap (fun b =>
          ((List.range n).filter (fun c => b < c)).map (fun c => (a, b, c))))).countP
        (fun t =>
          (wins t.1 t.2.1 && wins t.2.1 t.2.2 && wins t.2.2 t.1) ||
          (wins t.2.1 t.1 && wins t.1 t.2.2 && wins t.2.2 t.2.1))
    if totalTriads > 0 then (cycleCount : ℚ) / totalTriads else 0

/-- `Math.ceil((n - 1) / 3)`, the top-third rank threshold shared by
`computeReciprocityIndex`, `computeKCoreDecomposition` and `detectCoalitions`. -/
def topThird (n : ℕ) : Int := ⌈((n : ℚ) - 1) / 3⌉

/-- `computeReciprocityIndex(ballots, participants)`: a dyad `i < j` is
reciprocal iff both voters' ballots exist and each ranks the other with a
found rank (`> 0`) within the top third; returns `(index, pairs)`. -/
def computeReciprocityIndex (ballots : List Ballot) (participants : List Participant) :
    ℚ × List (String × String) :=
  let n := participants.length
  let ids := getIds participants
  let T := topThird n
  let mutualPairs : List (String × String) :=
    (List.range n).flatMap (fun i =>
      ((List.range n).filter (fun j => i < j)).filterMap (fun j =>
        match ballots.find? (fun b => b.voterId == ids.getD i ""),
              ballots.find? (fun b => b.voterId == ids.getD j "") with
        | some bi, some bj =>
          if 0 < getRank bi (ids.getD j "") ∧ getRank bi (ids.getD j "") ≤ T ∧
             0 < getRank bj (ids.getD i "") ∧ getRank bj (ids.getD i "") ≤ T
          then some (ids.getD i "", ids.getD j "") else none
        | _, _ => none))
  let totalDyads : ℚ := ((n : ℚ) * ((n : ℚ) - 1)) / 2
  (if totalDyads > 0 then (mutualPairs.length : ℚ) / totalDyads else 0, mutualPairs)

/-- The adjacency test `detectCoalitions` builds for a pair of indices: both
voters' ballots exist and each ranks the other within the top third.  NOTE:
faithful to the source, there is no `rank > 0` guard here (unlike
`computeReciprocityIndex`), so the not-found sentinel `-1` also passes the
`≤ topThird` test. -/
def coalitionAdjacent (ballots : List Ballot) (participants : List Participant)
    (i j : ℕ) : Bool :=
  let ids := getIds participants
  let T := topThird participants.length
  match ballots.find? (fun b => b.voterId == ids.getD i ""),
        ballots.find? (fun b => b.voterId == ids.getD j "") with
  | some bi, some bj =>
    decide (getRank bi (ids.getD j "") ≤ T ∧ getRank bj (ids.getD i "") ≤ T)
  | _, _ => false

/-- `detectCoalitions(ballots, participants)`: greedy clique growth over the
adjacency of `coalitionAdjacent`.  The JS `Map`/`Set` iterate in insertion
order, which for this construction (pairs visited with `i < j` ascending) is
ascending index order; neighbours of `i` are therefore
`(List.range n).filter (adjacency)`. -/
def detectCoalitions (ballots : List Ballot) (participants : List Participant) :
    List (List String) :=
  let n := participants.length
  let ids := getIds participants
  let nbrs : ℕ → List ℕ := fun i =>
    (List.range n).filter (fun j => decide (j ≠ i) && coalitionAdjacent ballots participants i j)
  let step : List ℕ × List (List String) → ℕ → List ℕ × List (List String) :=
    fun st start =>
      if start ∈ st.1 ∨ (nbrs start).isEmpty then st
      else
        let grown : List ℕ × List ℕ :=
          (nbrs start).foldl (fun p nb =>
            if nb ∉ p.2 ∧ p.1.all (fun m => coalitionAdjacent ballots participants nb m)
            then (p.1 ++ [nb], p.2 ++ [nb]) else p)
            ([start], st.1 ++ [start])
        if 2 ≤ grown.1.length
        then (grown.2, st.2 ++ [grown.1.map (fun k => ids.getD k "")])
        else (grown.2, st.2)
  ((List.range n).foldl step ([], [])).2

/-- `computeGini(values)`: sorts ascending (`.sort((a,b) => a-b)`, modelled by
`insertionSort` — for numeric values any correct sort yields the same list),
then `Σ (2(i+1) - n - 1)·xᵢ / (n·Σxᵢ)`, with 0 for empty or all-zero input. -/
def computeGini (values : List ℚ) : ℚ :=
  if values.length = 0 then 0
  else
    let sorted := values.insertionSort (· ≤ ·)
    let n := sorted.length
    let sum : ℚ := ((List.range n).map (fun (i : ℕ) =>
      (2 * ((i : ℚ) + 1) - (n : ℚ) - 1) * sorted.getD i 0)).sum
    let totalSum : ℚ := sorted.sum
    if totalSum = 0 then 0 else sum / ((n : ℚ) * totalSum)

/-- The numerator loop of `computeGini` on an (already sorted) list:
`Σ (2(i+1) - n - 1)·xᵢ`. -/
def giniNum (s : List ℚ) : ℚ :=
  ((List.range s.length).map (fun (i : ℕ) =>
    (2 * ((i : ℚ) + 1) - (s.length : ℚ) - 1) * s.getD i 0)).sum

/-- The modelled fields of the `AnalyticsResult` record assembled by
`useAnalytics`.  The record's remaining fields (entropies, mutual information,
eigenvector/betweenness centralities, leadership, cohesion, fragility, k-core,
communities, …) involve transcendental floating-point functions
(`Math.log2`, `Math.sqrt`) and are outside this development's exact-arithmetic
model; they are computed unconditionally after the same guard and cannot
affect the null/non-null outcome. -/
structure AnalyticsResult where
  bordaScores : List (String × Int)
  bordaRanking : List String
  giniCoefficient : ℚ
  condorcetWinner : Option String
  condorcetCycles : List (List String)
  kendallW : ℚ
  pairwiseMatrix : List (List ℕ)
  reciprocityIndex : ℚ
  reciprocalPairs : List (String × String)
  cycleDensity : ℚ
  isTournamentAcyclic : Bool
  coalitions : List (List String)
deriving Repr, DecidableEq

/-- `useAnalytics(participants, ballots)`: returns `null` when
`participants.length < 2 || ballots.length === 0`, otherwise assembles the
analytics record from the pure computation functions (`m = ballots.length`,
matrix built once and shared).  `bordaRanking` is
`Object.entries(bordaScores).sort((a,b) => b[1]-a[1]).map(([id]) => id)`,
modelled with the stable `mergeSort`. -/
def useAnalytics (participants : List Participant) (ballots : List Ballot) :
    Option AnalyticsResult :=
  if participants.length < 2 ∨ ballots.length = 0 then none
  else
    let m := ballots.length
    let pairwiseMatrix := buildPairwiseMatrix ballots participants
    let bordaScores := computeBordaScores ballots participants
    let bordaRanking :=
      (bordaScores.mergeSort (fun x y => decide (y.2 ≤ x.2))).map (fun e => e.1)
    let condorcetWinner := detectCondorcetWinner pairwiseMatrix participants m
    let condorcetCycles := findCondorcetCycles pairwiseMatrix participants m
    let kendallW := computeKendallW ballots participants
    let giniCoefficient := computeGini (bordaScores.map (fun e => (e.2 : ℚ)))
    let recip := computeReciprocityIndex ballots participants
    let cycleDensity := computeCycleDensity pairwiseMatrix m participants.length
    let isTournamentAcyclic := condorcetCycles.length = 0
    let coalitions := detectCoalitions ballots participants
    some {
      bordaScores := bordaScores
      bordaRanking := bordaRanking
      giniCoefficient := giniCoefficient
      condorcetWinner := condorcetWinner
      condorcetCycles := condorcetCycles
      kendallW := kendallW
      pairwiseMatrix := pairwiseMatrix
      reciprocityIndex := recip.1
      reciprocalPairs := recip.2
      cycleDensity := cycleDensity
      isTournamentAcyclic := isTournamentAcyclic
      coalitions := coalitions }

/-- The 3-participant rock-paper-scissors scenario of spec §8. -/
def rpsPs : List Participant := [⟨"A", "A"⟩, ⟨"B", "B"⟩, ⟨"C", "C"⟩]

/-- Ballots A:[B,C], B:[C,A], C:[A,B]. -/
def rpsBallots : List Ballot :=
  [⟨"A", ["B", "C"]⟩, ⟨"B", ["C", "A"]⟩, ⟨"C", ["A", "B"]⟩]

/-- The 4-participant identical-ballots scenario of spec §8. -/
def idPs : List Participant :=
  [⟨"P1", "P1"⟩, ⟨"P2", "P2"⟩, ⟨"P3", "P3"⟩, ⟨"P4", "P4"⟩]

/-- Every ballot ranks [P1,P2,P3,P4] with the voter's own id omitted. -/
def idBallots : List Ballot :=
  [⟨"P1", ["P2", "P3", "P4"]⟩, ⟨"P2", ["P1", "P3", "P4"]⟩,
   ⟨"P3", ["P1", "P2", "P4"]⟩, ⟨"P4", ["P1", "P2", "P3"]⟩]

/-- Two participants whose ballots exist but rank nobody: exposes the missing
`rank > 0` guard in `detectCoalitions`. -/
def emptyRankPs : List Participant := [⟨"A", "A"⟩, ⟨"B", "B"⟩]

/-- Both submitted ballots have empty rankings (every rank is the sentinel -1). -/
def emptyRankBallots : List Ballot := [⟨"A", []⟩, ⟨"B", []⟩]

/-- A pairwise matrix with one genuine directed majority 3-cycle
(0→1→2→0 with 3 of 3 ballots each). -/
def cycMatrix : List (List ℕ) := [[0, 3, 0], [0, 0, 3], [3, 0, 0]]

/-- Four participants where P1 beats everyone and P2,P3,P4 form a
majority cycle among themselves. -/
def winnerPs : List Participant :=
  [⟨"P1", "P1"⟩, ⟨"P2", "P2"⟩, ⟨"P3", "P3"⟩, ⟨"P4", "P4"⟩]

/-- Three ballots placing P1 first and rotating P2,P3,P4. -/
def winnerBallots : List Ballot :=
  [⟨"v1", ["P1", "P2", "P3", "P4"]⟩, ⟨"v2", ["P1", "P3", "P4", "P2"]⟩,
   ⟨"v3", ["P1", "P4", "P2", "P3"]⟩]

-- ─────────────────────────────────────────────────────────────
-- General lemmas about the embedded functions
-- ─────────────────────────────────────────────────────────────

theorem countP_disjoint_add_le (l : List Ballot) (p q : Ballot → Bool)
    (h : ∀ b, ¬(p b = true ∧ q b = true)) : l.countP p + l.countP q ≤ l.length := by
  induction l with
  | nil => simp
  | cons x t ih =>
    by_cases hp : p x = true <;> by_cases hq : q x = true
    · exact absurd ⟨hp, hq⟩ (h x)
    all_goals simp only [List.countP_cons, List.length_cons, hp, hq, if_true, if_false,
      Bool.false_eq_true]
    all_goals omega

theorem prefersCount_add_le (ballots : List Ballot) (idI idJ : String) :
    prefersCount ballots idI idJ + prefersCount ballots idJ idI ≤ ballots.length := by
  apply countP_disjoint_add_le
  intro b
  simp only [decide_eq_true_eq, not_and]
  intro h1 h2
  omega

theorem mEntry_build (ballots : List Ballot) (ps : List Participant) {i j : ℕ}
    (hi : i < ps.length) (hj : j < ps.length) :
    mEntry (buildPairwiseMatrix ballots ps) i j =
      if i = j then 0
      else prefersCount ballots ((getIds ps).getD i "") ((getIds ps).getD j "") := by
  simp [mEntry, buildPairwiseMatrix, List.getD_eq_getElem, hi, hj]

theorem ids_getD (ps : List Participant) (i : ℕ) (hi : i < ps.length) :
    (getIds ps).getD i "" = (ps.getD i ⟨"", ""⟩).id := by
  simp [getIds, List.getD_eq_getElem, hi]

theorem getIds_length (ps : List Participant) : (getIds ps).length = ps.length := by
  simp [getIds]

theorem getD_inj_of_nodup {l : List String} (h : l.Nodup) {x y : ℕ}
    (hx : x < l.length) (hy : y < l.length) (he : l.getD x "" = l.getD y "") : x = y := by
  rw [List.getD_eq_getElem _ _ hx, List.getD_eq_getElem _ _ hy] at he
  exact h.getElem_inj_iff.mp he

/-- Membership characterisation of `findCondorcetCycles`: exactly the lists
`[ids[a], ids[b], ids[c]]` for ordered triples of distinct in-range indices
whose three majority comparisons all hold. -/
theorem mem_findCondorcetCycles {matrix : List (List ℕ)} {ps : List Participant}
    {numBallots : ℕ} {t : List String} :
    t ∈ findCondorcetCycles matrix ps numBallots ↔
      ∃ a b c, a < ps.length ∧ b < ps.length ∧ c < ps.length ∧
        b ≠ a ∧ c ≠ a ∧ c ≠ b ∧
        (numBallots : ℚ) / 2 < (mEntry matrix a b : ℚ) ∧
        (numBallots : ℚ) / 2 < (mEntry matrix b c : ℚ) ∧
        (numBallots : ℚ) / 2 < (mEntry matrix c a : ℚ) ∧
        t = [(getIds ps).getD a "", (getIds ps).getD b "", (getIds ps).getD c ""] := by
  unfold findCondorcetCycles
  simp only [List.mem_flatMap, List.mem_range]
  constructor
  · rintro ⟨a, ha, b, hb, hmem⟩
    split at hmem
    · simp at hmem
    next hcond =>
      push_neg at hcond
      obtain ⟨hba, hab⟩ := hcond
      rw [List.mem_filterMap] at hmem
      obtain ⟨c, hc, heq⟩ := hmem
      rw [List.mem_range] at hc
      split at heq
      · simp at heq
      next hcab =>
        push_neg at hcab
        split at heq
        next hconds =>
          have ht : t = [(getIds ps).getD a "", (getIds ps).getD b "", (getIds ps).getD c ""] :=
            (Option.some.inj heq).symm
          exact ⟨a, b, c, ha, hb, hc, hba, hcab.1, hcab.2, hab, hconds.1, hconds.2, ht⟩
        · simp at heq
  · rintro ⟨a, b, c, ha, hb, hc, hba, hca, hcb, h1, h2, h3, rfl⟩
    refine ⟨a, ha, b, hb, ?_⟩
    rw [if_neg (by push_neg; exact ⟨hba, h1⟩), List.mem_filterMap]
    exact ⟨c, List.mem_range.mpr hc,
      by rw [if_neg (by push_neg; exact ⟨hca, hcb⟩), if_pos ⟨h2, h3⟩]⟩

theorem sum_map_range_single (f : ℕ → ℕ) (n a : ℕ) (ha : a < n)
    (h0 : ∀ x, x < n → x ≠ a → f x = 0) : ((List.range n).map f).sum = f a := by
  induction n with
  | zero => omega
  | succ n ih =>
    rw [List.range_succ, List.map_append, List.sum_append]
    by_cases han : a = n
    · subst han
      have hz : ((List.range a).map f).sum = 0 := by
        apply List.sum_eq_zero
        intro x hx
        rw [List.mem_map] at hx
        obtain ⟨y, hy, rfl⟩ := hx
        rw [List.mem_range] at hy
        exact h0 y (by omega) (by omega)
      simp [hz]
    · have hfn : f n = 0 := h0 n (by omega) (fun h => han h.symm)
      rw [ih (by omega) (fun x hx hxa => h0 x (by omega) hxa)]
      simp [hfn]

theorem count_filterMap_range (f : ℕ → Option (List String)) (n : ℕ) (x : List String)
    (c₀ : ℕ) (hc : c₀ < n) (huniq : ∀ c, c < n → f c = some x → c = c₀) :
    ((List.range n).filterMap f).count x = if f c₀ = some x then 1 else 0 := by
  induction n with
  | zero => omega
  | succ n ih =>
    rw [List.range_succ, List.filterMap_append, List.count_append]
    by_cases hcn : c₀ = n
    · subst hcn
      have hz : ((List.range c₀).filterMap f).count x = 0 := by
        rw [List.count_eq_zero]
        intro hmem
        rw [List.mem_filterMap] at hmem
        obtain ⟨c, hc', hfc⟩ := hmem
        rw [List.mem_range] at hc'
        exact absurd (huniq c (by omega) hfc) (by omega)
      rw [hz]
      cases hfc : f c₀ with
      | none => simp [List.filterMap_cons, hfc]
      | some y =>
        by_cases hyx : y = x
        · subst hyx
          simp [List.filterMap_cons, hfc]
        · simp [List.filterMap_cons, hfc, List.count_cons, hyx]
    · have hfn0 : ∀ y, f n = some y → y ≠ x := by
        intro y hfy hyx
        subst hyx
        exact hcn (huniq n (by omega) hfy).symm
      have hz : (List.filterMap f [n]).count x = 0 := by
        cases hfy : f n with
        | none => simp [List.filterMap_cons, hfy]
        | some y => simp [List.filterMap_cons, hfy, List.count_cons, hfn0 y hfy]
      rw [hz, ih (by omega) (fun c hc' hfc => huniq c (by omega) hfc)]
      omega

-- ─────────────────────────────────────────────────────────────
-- Claim theorems
-- ─────────────────────────────────────────────────────────────

/-- C8: for every ballots/participants input and in-range indices, the pairwise
matrix has a zero diagonal, and for `i ≠ j` a ballot contributes to at most one
of `matrix[i][j]`, `matrix[j][i]`, so their sum is at most `ballots.length`. -/
theorem pairwise_matrix_bounds (ballots : List Ballot) (ps : List Participant)
    (i j : ℕ) (hi : i < ps.length) (hj : j < ps.length) :
    mEntry (buildPairwiseMatrix ballots ps) i i = 0 ∧
    (i ≠ j →
      mEntry (buildPairwiseMatrix ballots ps) i j +
        mEntry (buildPairwiseMatrix ballots ps) j i ≤ ballots.length) := by
  constructor
  · rw [mEntry_build ballots ps hi hi, if_pos rfl]
  · intro hne
    rw [mEntry_build ballots ps hi hj, mEntry_build ballots ps hj hi,
      if_neg hne, if_neg (Ne.symm hne)]
    exact prefersCount_add_le ballots _ _

/-- C7: under unique participant ids, a detected Condorcet winner never
appears in any triple listed by `findCondorcetCycles` on the matrix built by
`buildPairwiseMatrix` with `numBallots = ballots.length`: the winner's strict
majority over each opponent plus the cycle's strict majority in the opposite
direction would exceed the pairwise bound `matrix[i][j] + matrix[j][i] ≤
ballots.length`. -/
theorem winner_not_in_cycles (ballots : List Ballot) (ps : List Participant)
    (hnd : (getIds ps).Nodup) (w : String) (t : List String)
    (hw : detectCondorcetWinner (buildPairwiseMatrix ballots ps) ps ballots.length = some w)
    (ht : t ∈ findCondorcetCycles (buildPairwiseMatrix ballots ps) ps ballots.length) :
    w ∉ t := by
  unfold detectCondorcetWinner at hw
  rw [Option.map_eq_some'] at hw
  obtain ⟨i, hfind, hwi⟩ := hw
  have hi : i < ps.length := by
    have := List.mem_of_find?_eq_some hfind
    simpa using this
  have hall := List.find?_some hfind
  rw [List.all_eq_true] at hall
  have hbeats : ∀ j, j < ps.length → j ≠ i →
      (ballots.length : ℚ) / 2 < (mEntry (buildPairwiseMatrix ballots ps) i j : ℚ) := by
    intro j hj hne
    have h := hall j (List.mem_range.mpr hj)
    simp only [Bool.or_eq_true, beq_iff_eq, decide_eq_true_eq] at h
    rcases h with h | h
    · exact absurd h hne
    · exact h
  have key : ∀ x y, x < ps.length → y < ps.length → x ≠ y →
      (ballots.length : ℚ) / 2 < (mEntry (buildPairwiseMatrix ballots ps) x y : ℚ) →
      (ballots.length : ℚ) / 2 < (mEntry (buildPairwiseMatrix ballots ps) y x : ℚ) →
      False := by
    intro x y hx hy hxy hlt1 hlt2
    have hsum : mEntry (buildPairwiseMatrix ballots ps) x y +
        mEntry (buildPairwiseMatrix ballots ps) y x ≤ ballots.length := by
      rw [mEntry_build ballots ps hx hy, mEntry_build ballots ps hy hx,
        if_neg hxy, if_neg (Ne.symm hxy)]
      exact prefersCount_add_le ballots _ _
    have hq : (mEntry (buildPairwiseMatrix ballots ps) x y : ℚ) +
        (mEntry (buildPairwiseMatrix ballots ps) y x : ℚ) ≤ (ballots.length : ℚ) := by
      exact_mod_cast hsum
    linarith
  rw [mem_findCondorcetCycles] at ht
  obtain ⟨a, b, c, ha, hb, hc, hba, hca, hcb, h1, h2, h3, rfl⟩ := ht
  have hwid : (getIds ps).getD i "" = w := by rw [ids_getD ps i hi]; exact hwi
  have hlen := getIds_length ps
  intro hmem
  simp only [List.mem_cons, List.not_mem_nil, or_false] at hmem
  rcases hmem with he | he | he
  · have hia : i = a :=
      getD_inj_of_nodup hnd (hlen ▸ hi) (hlen ▸ ha) (by rw [hwid, he])
    have hci : c ≠ i := by rw [hia]; exact hca
    exact key i c hi hc (Ne.symm hci) (hbeats c hc hci) (by rw [hia]; exact h3)
  · have hib : i = b :=
      getD_inj_of_nodup hnd (hlen ▸ hi) (hlen ▸ hb) (by rw [hwid, he])
    have hai : a ≠ i := by rw [hib]; exact fun h => hba h.symm
    exact key i a hi ha (Ne.symm hai) (hbeats a ha hai) (by rw [hib]; exact h1)
  · have hic : i = c :=
      getD_inj_of_nodup hnd (hlen ▸ hi) (hlen ▸ hc) (by rw [hwid, he])
    have hbi : b ≠ i := by rw [hic]; exact fun h => hcb h.symm
    exact key i b hi hb (Ne.symm hbi) (hbeats b hb hbi) (by rw [hic]; exact h2)

/-- C7 witness: in the `winnerPs`/`winnerBallots` scenario P1 is the Condorcet
winner while P2,P3,P4 form a majority cycle; the theorem applied to the listed
triple `[P2,P3,P4]` shows P1 is not in it. -/
theorem winner_not_in_cycles_witness : "P1" ∉ (["P2", "P3", "P4"] : List String) :=
  winner_not_in_cycles winnerBallots winnerPs (by decide) "P1" ["P2", "P3", "P4"]
    (by with_unfolding_all decide) (by with_unfolding_all decide)

/-- C8 witness: the bounds instantiated at the identical-ballots scenario with
`i = 0`, `j = 1`. -/
theorem pairwise_matrix_bounds_witness :
    mEntry (buildPairwiseMatrix idBallots idPs) 0 0 = 0 ∧
    (0 ≠ 1 →
      mEntry (buildPairwiseMatrix idBallots idPs) 0 1 +
        mEntry (buildPairwiseMatrix idBallots idPs) 1 0 ≤ idBallots.length) :=
  pairwise_matrix_bounds idBallots idPs 0 1 (by decide) (by decide)

/-- C1 (counterexample): in the rock-paper-scissors scenario the spec's
predicted outputs are false: with 3 ballots each pairwise comparison is
supported by only 1 ballot, which is not a strict majority of all 3 ballots,
so no majority edge and hence no cycle exists. -/
theorem rps_scenario_claim_false :
    ¬ ((useAnalytics rpsPs rpsBallots).map (fun r => r.condorcetWinner) = some none ∧
       (useAnalytics rpsPs rpsBallots).map (fun r => r.condorcetCycles.length) = some 1 ∧
       (useAnalytics rpsPs rpsBallots).map (fun r => r.cycleDensity) = some 1 ∧
       (useAnalytics rpsPs rpsBallots).map (fun r => r.isTournamentAcyclic) = some false) := by
  with_unfolding_all decide

/-- C1 (amended): for the rock-paper-scissors ballots the engine yields
condorcetWinner = null, findCondorcetCycles = [] (no strict-majority edge
exists, since each pair is comparable on only one of the three ballots),
cycleDensity = 0 and isTournamentAcyclic = true. -/
theorem rps_scenario_actual :
    (useAnalytics rpsPs rpsBallots).map (fun r => r.condorcetWinner) = some none ∧
    (useAnalytics rpsPs rpsBallots).map (fun r => r.condorcetCycles) = some [] ∧
    (useAnalytics rpsPs rpsBallots).map (fun r => r.cycleDensity) = some 0 ∧
    (useAnalytics rpsPs rpsBallots).map (fun r => r.isTournamentAcyclic) = some true := by
  refine ⟨?_, ?_, ?_, ?_⟩ <;> with_unfolding_all decide

/-- C2 (counterexample): in the identical-ballots scenario no participant has
a strict majority over any other — every pairwise cell is 2 of 4 ballots
(the two ballots naming both ids), and 2 > 4/2 fails — so the Condorcet
winner is null, not P1. -/
theorem identical_ballots_no_winner :
    ¬ ((useAnalytics idPs idBallots).map (fun r => r.condorcetWinner) =
        some (some "P1")) := by
  with_unfolding_all decide

/-- C2 (amended): for the identical-ballots scenario the engine yields
kendallW = 1.0, Borda ranking [P1,P2,P3,P4] and giniCoefficient > 0 as
claimed, but condorcetWinner = null (each pairwise tally is 2 of 4 ballots,
not a strict majority). -/
theorem identical_ballots_actual :
    (useAnalytics idPs idBallots).map (fun r => r.kendallW) = some 1 ∧
    (useAnalytics idPs idBallots).map (fun r => r.bordaRanking) =
      some ["P1", "P2", "P3", "P4"] ∧
    (useAnalytics idPs idBallots).map (fun r => decide (0 < r.giniCoefficient)) =
      some true ∧
    (useAnalytics idPs idBallots).map (fun r => r.condorcetWinner) = some none := by
  refine ⟨?_, ?_, ?_, ?_⟩ <;> with_unfolding_all decide

/-- C3 (code bug): `detectCoalitions` omits the `rank > 0` guard that
`computeReciprocityIndex` has, so the not-found sentinel `-1` passes the
`≤ topThird` test: two voters who never rank each other are reported as a
coalition even though neither ranks the other at all. -/
theorem coalition_missing_rank_guard :
    detectCoalitions emptyRankBallots emptyRankPs = [["A", "B"]] ∧
    getRank ⟨"A", []⟩ "B" = -1 ∧ getRank ⟨"B", []⟩ "A" = -1 ∧
    (computeReciprocityIndex emptyRankBallots emptyRankPs).2 = [] := by
  refine ⟨?_, ?_, ?_, ?_⟩ <;> with_unfolding_all decide

/-- C4 (counterexample): for the single directed majority cycle 0→1→2→0 the
enumeration lists all three rotations `[A,B,C]`, `[B,C,A]`, `[C,A,B]` — three
entries, not the claimed single entry per rotational direction. -/
theorem cycles_rotations_tripled :
    findCondorcetCycles cycMatrix rpsPs 3 =
      [["A", "B", "C"], ["B", "C", "A"], ["C", "A", "B"]] ∧
    ¬ ((findCondorcetCycles cycMatrix rpsPs 3).length = 1) := by
  refine ⟨?_, ?_⟩ <;> with_unfolding_all decide

/-- C4 (amended): under unique participant ids, for any pairwise matrix and
ballot count, an ordered triple of distinct in-range indices `(a,b,c)`
contributes the entry `[ids[a], ids[b], ids[c]]` exactly once iff
`matrix[a][b] > numBallots/2`, `matrix[b][c] > numBallots/2` and
`matrix[c][a] > numBallots/2`, and never otherwise; consequently each directed
majority 3-cycle is listed three times, once per rotation, not once per
rotational direction. -/
theorem findCondorcetCycles_count (matrix : List (List ℕ)) (ps : List Participant)
    (numBallots : ℕ) (hnd : (getIds ps).Nodup) (a b c : ℕ)
    (ha : a < ps.length) (hb : b < ps.length) (hc : c < ps.length)
    (hab : a ≠ b) (hbc : b ≠ c) (hac : a ≠ c) :
    (findCondorcetCycles matrix ps numBallots).count
        [(getIds ps).getD a "", (getIds ps).getD b "", (getIds ps).getD c ""] =
      if ((numBallots : ℚ) / 2 < (mEntry matrix a b : ℚ) ∧
          (numBallots : ℚ) / 2 < (mEntry matrix b c : ℚ) ∧
          (numBallots : ℚ) / 2 < (mEntry matrix c a : ℚ)) then 1 else 0 := by
  have hlen := getIds_length ps
  have key : ∀ (a' b' c' : ℕ), a' < ps.length → b' < ps.length → c' < ps.length →
      [(getIds ps).getD a' "", (getIds ps).getD b' "", (getIds ps).getD c' ""] =
        [(getIds ps).getD a "", (getIds ps).getD b "", (getIds ps).getD c ""] →
      a' = a ∧ b' = b ∧ c' = c := by
    intro a' b' c' ha' hb' hc' he
    simp only [List.cons.injEq, and_true] at he
    exact ⟨getD_inj_of_nodup hnd (hlen ▸ ha') (hlen ▸ ha) he.1,
           getD_inj_of_nodup hnd (hlen ▸ hb') (hlen ▸ hb) he.2.1,
           getD_inj_of_nodup hnd (hlen ▸ hc') (hlen ▸ hc) he.2.2⟩
  by_cases hcond : ((numBallots : ℚ) / 2 < (mEntry matrix a b : ℚ) ∧
      (numBallots : ℚ) / 2 < (mEntry matrix b c : ℚ) ∧
      (numBallots : ℚ) / 2 < (mEntry matrix c a : ℚ))
  · rw [if_pos hcond]
    set G : ℕ → ℕ → ℕ → Option (List String) := fun x y z =>
      if z = x ∨ z = y then none
      else if (numBallots : ℚ) / 2 < (mEntry matrix y z : ℚ) ∧
              (numBallots : ℚ) / 2 < (mEntry matrix z x : ℚ)
      then some [(getIds ps).getD x "", (getIds ps).getD y "", (getIds ps).getD z ""]
      else none with hG
    set F2 : ℕ → ℕ → List (List String) := fun x y =>
      if y = x ∨ ¬ ((numBallots : ℚ) / 2 < (mEntry matrix x y : ℚ)) then []
      else (List.range ps.length).filterMap (G x y) with hF2
    set F1 : ℕ → List (List String) := fun x =>
      (List.range ps.length).flatMap (F2 x) with hF1
    have hunf : findCondorcetCycles matrix ps numBallots =
        (List.range ps.length).flatMap F1 := rfl
    rw [hunf, List.count_flatMap]
    have hz1 : ∀ x, x < ps.length → x ≠ a →
        (List.count [(getIds ps).getD a "", (getIds ps).getD b "",
          (getIds ps).getD c ""] ∘ F1) x = 0 := by
      intro x hx hxa
      simp only [Function.comp]
      rw [List.count_eq_zero]
      intro hmem
      simp only [hF1] at hmem
      rw [List.mem_flatMap] at hmem
      obtain ⟨y, hy, hmem2⟩ := hmem
      rw [List.mem_range] at hy
      simp only [hF2] at hmem2
      split at hmem2
      · simp at hmem2
      · rw [List.mem_filterMap] at hmem2
        obtain ⟨z, hz, hsome⟩ := hmem2
        rw [List.mem_range] at hz
        simp only [hG] at hsome
        split at hsome
        · simp at hsome
        split at hsome
        · exact hxa (key x y z hx hy hz (Option.some.inj hsome)).1
        · simp at hsome
    rw [sum_map_range_single _ ps.length a ha hz1]
    simp only [Function.comp, hF1]
    rw [List.count_flatMap]
    have hz2 : ∀ y, y < ps.length → y ≠ b →
        (List.count [(getIds ps).getD a "", (getIds ps).getD b "",
          (getIds ps).getD c ""] ∘ F2 a) y = 0 := by
      intro y hy hyb
      simp only [Function.comp]
      rw [List.count_eq_zero]
      intro hmem2
      simp only [hF2] at hmem2
      split at hmem2
      · simp at hmem2
      · rw [List.mem_filterMap] at hmem2
        obtain ⟨z, hz, hsome⟩ := hmem2
        rw [List.mem_range] at hz
        simp only [hG] at hsome
        split at hsome
        · simp at hsome
        split at hsome
        · exact hyb (key a y z ha hy hz (Option.some.inj hsome)).2.1
        · simp at hsome
    rw [sum_map_range_single _ ps.length b hb hz2]
    simp only [Function.comp, hF2]
    rw [if_neg (by push_neg; exact ⟨Ne.symm hab, hcond.1⟩)]
    have huniqc : ∀ z, z < ps.length →
        G a b z = some [(getIds ps).getD a "", (getIds ps).getD b "",
          (getIds ps).getD c ""] → z = c := by
      intro z hz hsome
      simp only [hG] at hsome
      split at hsome
      · simp at hsome
      split at hsome
      · exact (key a b z ha hb hz (Option.some.inj hsome)).2.2
      · simp at hsome
    rw [count_filterMap_range (G a b) ps.length _ c hc huniqc]
    rw [if_pos]
    simp only [hG]
    rw [if_neg (by push_neg; exact ⟨Ne.symm hac, Ne.symm hbc⟩), if_pos ⟨hcond.2.1, hcond.2.2⟩]
  · rw [if_neg hcond, List.count_eq_zero]
    intro hmem
    rw [mem_findCondorcetCycles] at hmem
    obtain ⟨a', b', c', ha', hb', hc', -, -, -, h1, h2, h3, heq⟩ := hmem
    obtain ⟨rfl, rfl, rfl⟩ := key a' b' c' ha' hb' hc' heq.symm
    exact hcond ⟨h1, h2, h3⟩

/-- C4 witness: in the single-directed-cycle matrix the triple `[A,B,C]` is
counted exactly once (and so are its rotations, giving the three listed
entries). -/
theorem findCondorcetCycles_count_witness :
    (findCondorcetCycles cycMatrix rpsPs 3).count
        [(getIds rpsPs).getD 0 "", (getIds rpsPs).getD 1 "", (getIds rpsPs).getD 2 ""] =
      if ((3 : ℚ) / 2 < (mEntry cycMatrix 0 1 : ℚ) ∧
          (3 : ℚ) / 2 < (mEntry cycMatrix 1 2 : ℚ) ∧
          (3 : ℚ) / 2 < (mEntry cycMatrix 2 0 : ℚ)) then 1 else 0 :=
  findCondorcetCycles_count cycMatrix rpsPs 3 (by decide) 0 1 2
    (by decide) (by decide) (by decide) (by decide) (by decide) (by decide)

/-- C5: `useAnalytics` returns null exactly when there are fewer than 2
participants or no ballots; for any other input it returns a (total,
exception-free) analytics record. -/
theorem useAnalytics_none_iff (participants : List Participant) (ballots : List Ballot) :
    useAnalytics participants ballots = none ↔
      (participants.length < 2 ∨ ballots.length = 0) := by
  unfold useAnalytics
  split
  next h => exact iff_of_true rfl h
  next h => exact iff_of_false (by simp) h

-- ─────────────────────────────────────────────────────────────
-- Gini lemmas (C10)
-- ─────────────────────────────────────────────────────────────

theorem computeGini_eq (values : List ℚ) :
    computeGini values =
      if values.length = 0 then 0
      else
        if (values.insertionSort (· ≤ ·)).sum = 0 then 0
        else giniNum (values.insertionSort (· ≤ ·)) /
          (((values.insertionSort (· ≤ ·)).length : ℚ) *
            (values.insertionSort (· ≤ ·)).sum) := rfl

theorem list_range_map_sum {M : Type} [AddCommMonoid M] (f : ℕ → M) (n : ℕ) :
    ((List.range n).map f).sum = ∑ i ∈ Finset.range n, f i := by
  induction n with
  | zero => simp
  | succ n ih =>
    rw [List.range_succ, List.map_append, List.sum_append, Finset.sum_range_succ, ih]
    simp

theorem insertionSort_eq_of_perm_sorted {l s : List ℚ} (hp : l.Perm s)
    (hs : List.Sorted (· ≤ ·) s) : l.insertionSort (· ≤ ·) = s :=
  List.eq_of_perm_of_sorted ((List.perm_insertionSort _ l).trans hp)
    (List.sorted_insertionSort _ l) hs

theorem coeff_sum_zero (k : ℕ) :
    (∑ i ∈ Finset.range k, (2 * ((i : ℚ) + 1) - (k : ℚ) - 1)) = 0 := by
  have hrefl := Finset.sum_range_reflect (fun i => 2 * ((i : ℚ) + 1) - (k : ℚ) - 1) k
  have hneg : ∑ j ∈ Finset.range k, (2 * (((k - 1 - j : ℕ) : ℚ) + 1) - (k : ℚ) - 1) =
      ∑ j ∈ Finset.range k, -(2 * ((j : ℚ) + 1) - (k : ℚ) - 1) := by
    apply Finset.sum_congr rfl
    intro j hj
    rw [Finset.mem_range] at hj
    have hcast : ((k - 1 - j : ℕ) : ℚ) = (k : ℚ) - 1 - (j : ℚ) := by
      have h1 : j ≤ k - 1 := by omega
      have h2 : 1 ≤ k := by omega
      push_cast [Nat.cast_sub h1, Nat.cast_sub h2]
      ring
    rw [hcast]
    ring
  rw [hneg, Finset.sum_neg_distrib] at hrefl
  linarith

theorem giniNum_replicate (k : ℕ) (c : ℚ) : giniNum (List.replicate k c) = 0 := by
  unfold giniNum
  simp only [List.length_replicate]
  have hmap : (List.range k).map (fun (i : ℕ) =>
      (2 * ((i : ℚ) + 1) - (k : ℚ) - 1) * (List.replicate k c).getD i 0) =
      (List.range k).map (fun (i : ℕ) => (2 * ((i : ℚ) + 1) - (k : ℚ) - 1) * c) := by
    apply List.map_congr_left
    intro i hi
    rw [List.mem_range] at hi
    rw [List.getD_eq_getElem _ _ (by simpa using hi), List.getElem_replicate]
  rw [hmap, list_range_map_sum, ← Finset.sum_mul, coeff_sum_zero, zero_mul]

theorem computeGini_const (l : List ℚ) (c : ℚ) (h : ∀ x ∈ l, x = c) :
    computeGini l = 0 := by
  rw [computeGini_eq]
  by_cases hl : l.length = 0
  · rw [if_pos hl]
  rw [if_neg hl]
  have hsorted : l.insertionSort (· ≤ ·) = List.replicate l.length c := by
    apply insertionSort_eq_of_perm_sorted
    · exact (List.eq_replicate_iff.mpr ⟨rfl, h⟩) ▸ List.Perm.refl l
    · exact List.pairwise_replicate.mpr (Or.inr le_rfl)
  rw [hsorted, giniNum_replicate]
  split
  · rfl
  · rw [zero_div]

theorem computeGini_smul (l : List ℚ) (lam : ℚ) (hpos : 0 < lam) :
    computeGini (l.map (fun x => lam * x)) = computeGini l := by
  rw [computeGini_eq, computeGini_eq]
  by_cases h0 : l.length = 0
  · rw [if_pos (by simpa using h0), if_pos h0]
  rw [if_neg (by simpa using h0), if_neg h0]
  have hsorted : (l.map (fun x => lam * x)).insertionSort (· ≤ ·) =
      (l.insertionSort (· ≤ ·)).map (fun x => lam * x) := by
    apply insertionSort_eq_of_perm_sorted
    · exact ((List.perm_insertionSort _ l).symm.map _)
    · exact List.Pairwise.map _ (fun a b hab => by
        exact mul_le_mul_of_nonneg_left hab (le_of_lt hpos))
        (List.sorted_insertionSort _ l)
  rw [hsorted]
  have hsum : ((l.insertionSort (· ≤ ·)).map (fun x => lam * x)).sum =
      lam * (l.insertionSort (· ≤ ·)).sum := by
    have := List.sum_map_mul_left (l.insertionSort (· ≤ ·)) (fun x => x) lam
    simpa using this
  have hnum : giniNum ((l.insertionSort (· ≤ ·)).map (fun x => lam * x)) =
      lam * giniNum (l.insertionSort (· ≤ ·)) := by
    unfold giniNum
    rw [List.length_map]
    have hmap : (List.range (l.insertionSort (· ≤ ·)).length).map (fun (i : ℕ) =>
        (2 * ((i : ℚ) + 1) - ((l.insertionSort (· ≤ ·)).length : ℚ) - 1) *
          ((l.insertionSort (· ≤ ·)).map (fun x => lam * x)).getD i 0) =
        (List.range (l.insertionSort (· ≤ ·)).length).map (fun (i : ℕ) =>
        lam * ((2 * ((i : ℚ) + 1) - ((l.insertionSort (· ≤ ·)).length : ℚ) - 1) *
          (l.insertionSort (· ≤ ·)).getD i 0)) := by
      apply List.map_congr_left
      intro i hi
      rw [List.mem_range] at hi
      rw [List.getD_eq_getElem _ _ (by simpa using hi), List.getElem_map,
        List.getD_eq_getElem _ _ hi]
      ring
    rw [hmap]
    exact List.sum_map_mul_left _ _ lam
  by_cases hts : (l.insertionSort (· ≤ ·)).sum = 0
  · rw [if_pos (by rw [hsum, hts, mul_zero]), if_pos hts]
  · rw [if_neg (by rw [hsum]; exact mul_ne_zero (ne_of_gt hpos) hts), if_neg hts]
    rw [hnum, hsum, List.length_map]
    rw [mul_comm lam ((l.insertionSort (· ≤ ·)).sum), ← mul_assoc]
    rw [mul_comm lam (giniNum (l.insertionSort (· ≤ ·)))]
    rw [mul_div_mul_right _ _ (ne_of_gt hpos)]

theorem computeGini_oneholds (l : List ℚ) (k : ℕ) (v : ℚ) (hv : 0 < v)
    (hperm : l.Perm (v :: List.replicate k 0)) :
    computeGini l = ((l.length : ℚ) - 1) / (l.length : ℚ) := by
  have hlen : l.length = k + 1 := by simpa using hperm.length_eq
  rw [computeGini_eq, if_neg (by omega)]
  have hsorted : l.insertionSort (· ≤ ·) = List.replicate k 0 ++ [v] := by
    apply insertionSort_eq_of_perm_sorted
    · exact hperm.trans (List.perm_append_singleton v (List.replicate k 0)).symm
    · apply List.pairwise_append.mpr
      refine ⟨List.pairwise_replicate.mpr (Or.inr le_rfl), List.pairwise_singleton _ _, ?_⟩
      intro x hx y hy
      rw [List.eq_of_mem_replicate hx, List.mem_singleton.mp hy]
      exact le_of_lt hv
  rw [hsorted]
  have hsum : (List.replicate k 0 ++ [v]).sum = v := by
    simp [List.sum_replicate]
  have hslen : (List.replicate k 0 ++ [v]).length = k + 1 := by simp
  rw [if_neg (by rw [hsum]; exact ne_of_gt hv)]
  have hnum : giniNum (List.replicate k 0 ++ [v]) = (k : ℚ) * v := by
    unfold giniNum
    rw [hslen, List.range_succ, List.map_append, List.sum_append]
    have h1 : ((List.range k).map (fun (i : ℕ) =>
        (2 * ((i : ℚ) + 1) - ((k + 1 : ℕ) : ℚ) - 1) *
          (List.replicate k 0 ++ [v]).getD i 0)).sum = 0 := by
      apply List.sum_eq_zero
      intro x hx
      rw [List.mem_map] at hx
      obtain ⟨i, hi, rfl⟩ := hx
      rw [List.mem_range] at hi
      have hg : (List.replicate k 0 ++ [v]).getD i 0 = 0 := by
        rw [List.getD_eq_getElem _ _ (by simp; omega),
          List.getElem_append_left (by simpa using hi), List.getElem_replicate]
      rw [hg, mul_zero]
    rw [h1, zero_add]
    simp only [List.map_cons, List.map_nil, List.sum_cons, List.sum_nil, add_zero]
    have hg : (List.replicate k 0 ++ [v]).getD k 0 = v := by
      rw [List.getD_eq_getElem _ _ (by simp)]
      rw [List.getElem_append_right (by simp)]
      simp
    rw [hg]
    push_cast
    ring
  rw [hnum, hsum, hslen, hlen]
  have hk1 : ((k : ℚ) + 1) ≠ 0 := by positivity
  field_simp
  ring

/-- C10: `computeGini` is 0 on every constant (hence all-zero or empty) array,
invariant under positive uniform scaling of a non-negative array, and equals
exactly (n-1)/n on a one-holds-everything array of length n. -/
theorem gini_properties :
    (∀ (l : List ℚ) (c : ℚ), (∀ x ∈ l, x = c) → computeGini l = 0) ∧
    (∀ (l : List ℚ) (lam : ℚ), (∀ x ∈ l, 0 ≤ x) → 0 < lam →
      computeGini (l.map (fun x => lam * x)) = computeGini l) ∧
    (∀ (l : List ℚ) (k : ℕ) (v : ℚ), 0 < v → l.Perm (v :: List.replicate k 0) →
      computeGini l = ((l.length : ℚ) - 1) / (l.length : ℚ)) :=
  ⟨computeGini_const,
   fun l lam _ hpos => computeGini_smul l lam hpos,
   computeGini_oneholds⟩

/-- C10 witness: the three properties at concrete inputs — a constant array,
a positively scaled non-negative array, and a one-holds-everything array of
length 3 (for which (n-1)/n = 2/3). -/
theorem gini_properties_witness :
    computeGini [(2 : ℚ), 2] = 0 ∧
    computeGini ([(1 : ℚ), 2].map (fun x => 3 * x)) = computeGini [(1 : ℚ), 2] ∧
    computeGini [(5 : ℚ), 0, 0] =
      ((([(5 : ℚ), 0, 0] : List ℚ).length : ℚ) - 1) / (([(5 : ℚ), 0, 0] : List ℚ).length : ℚ) :=
  ⟨gini_properties.1 [2, 2] 2 (by decide),
   gini_properties.2.1 [1, 2] 3 (by decide) (by norm_num),
   gini_properties.2.2 [5, 0, 0] 2 5 (by norm_num) (by decide)⟩

-- ─────────────────────────────────────────────────────────────
-- Borda sum lemmas (C9)
-- ─────────────────────────────────────────────────────────────

theorem computeBordaScores_eq (ballots : List Ballot) (ps : List Participant) :
    computeBordaScores ballots ps = ps.map (fun p =>
      (p.id, (ballots.map (fun b =>
        if b.voterId = p.id then 0
        else if 0 < getRank b p.id then bordaPoints (getRank b p.id) (ps.length : ℤ)
        else 0)).sum)) := rfl

theorem sum_map_add_int {α : Type} (l : List α) (f g : α → ℤ) :
    (l.map (fun x => f x + g x)).sum = (l.map f).sum + (l.map g).sum := by
  induction l with
  | nil => simp
  | cons a t ih =>
    simp only [List.map_cons, List.sum_cons, ih]
    ring

theorem sum_map_swap_int {α β : Type} (l1 : List α) (l2 : List β) (f : α → β → ℤ) :
    (l1.map (fun a => (l2.map (f a)).sum)).sum =
      (l2.map (fun b => (l1.map (fun a => f a b)).sum)).sum := by
  induction l1 with
  | nil =>
    simp only [List.map_nil, List.sum_nil]
    symm
    apply List.sum_eq_zero
    intro x hx
    rw [List.mem_map] at hx
    obtain ⟨b, -, rfl⟩ := hx
    simp
  | cons a t ih =>
    simp only [List.map_cons, List.sum_cons, ih]
    rw [← sum_map_add_int]

theorem sum_map_const_int {α : Type} (l : List α) (c : ℤ) :
    (l.map (fun _ => c)).sum = (l.length : ℤ) * c := by
  induction l with
  | nil => simp
  | cons a t ih =>
    simp only [List.map_cons, List.sum_cons, List.length_cons, ih]
    push_cast
    ring

theorem sum_ite_int (l : List String) (P : String → Bool) (f : String → ℤ) :
    (l.map (fun x => if P x then f x else 0)).sum = ((l.filter P).map f).sum := by
  induction l with
  | nil => simp
  | cons a t ih =>
    by_cases hp : P a
    · simp [List.filter_cons, hp, ih]
    · simp [List.filter_cons, hp, ih]

theorem getRank_pos_iff (b : Ballot) (t : String) : 0 < getRank b t ↔ t ∈ b.ranking := by
  unfold getRank
  rcases h : b.ranking.findIdx? (fun x => x == t) with _ | idx
  · rw [List.findIdx?_eq_none_iff] at h
    show (0 : ℤ) < -1 ↔ t ∈ b.ranking
    constructor
    · intro h1; exact absurd h1 (by norm_num)
    · intro hmem
      have := h t hmem
      simp at this
  · show (0 : ℤ) < (idx : ℤ) + 1 ↔ t ∈ b.ranking
    constructor
    · intro _
      rw [List.findIdx?_eq_some_iff_getElem] at h
      obtain ⟨hlt, hbeq, -⟩ := h
      have heq : b.ranking[idx] = t := by simpa using hbeq
      exact heq ▸ List.getElem_mem hlt
    · intro _
      positivity

theorem map_sub_getRank (b : Ballot) (h : b.ranking.Nodup) (n : ℤ) :
    (b.ranking.map (fun s => n - getRank b s)).sum =
      ((List.range b.ranking.length).map (fun (i : ℕ) => n - ((i : ℤ) + 1))).sum := by
  congr 1
  apply List.ext_getElem (by simp)
  intro i h1 h2
  simp only [List.getElem_map, List.getElem_range]
  congr 1
  have hlen : i < b.ranking.length := by simpa using h1
  unfold getRank
  have hfind : b.ranking.findIdx? (fun x => x == b.ranking[i]) = some i := by
    rw [List.findIdx?_eq_some_iff_getElem]
    refine ⟨hlen, by simp, ?_⟩
    intro j hji
    simp only [beq_iff_eq, Bool.not_eq_true, decide_eq_false_iff_not]
    intro he
    have := h.getElem_inj_iff.mp he
    omega
  rw [hfind]

theorem sum_range_sub_int (n L : ℕ) (h : L = n ∨ L + 1 = n) :
    ((List.range L).map (fun (i : ℕ) => (n : ℤ) - ((i : ℤ) + 1))).sum =
      ∑ k ∈ Finset.range n, (k : ℤ) := by
  rw [list_range_map_sum]
  have hrefl := Finset.sum_range_reflect (fun (i : ℕ) => (n : ℤ) - ((i : ℤ) + 1)) L
  rw [← hrefl]
  rcases h with rfl | hL
  · apply Finset.sum_congr rfl
    intro j hj
    rw [Finset.mem_range] at hj
    have hc : ((L - 1 - j : ℕ) : ℤ) = (L : ℤ) - 1 - (j : ℤ) := by omega
    rw [hc]
    ring
  · have h1 : ∀ j ∈ Finset.range L, (n : ℤ) - (((L - 1 - j : ℕ) : ℤ) + 1) = (j : ℤ) + 1 := by
      intro j hj
      rw [Finset.mem_range] at hj
      have hc : ((L - 1 - j : ℕ) : ℤ) = (L : ℤ) - 1 - (j : ℤ) := by omega
      have hn : (n : ℤ) = (L : ℤ) + 1 := by omega
      rw [hc, hn]
      ring
    rw [Finset.sum_congr rfl h1, ← hL, Finset.sum_range_succ' (fun k => (k : ℤ)) L]
    push_cast
    simp

theorem sum_ite_prop_int (l : List String) (Q : String → Prop) [DecidablePred Q]
    (f : String → ℤ) :
    (l.map (fun x => if Q x then f x else 0)).sum =
      ((l.filter (fun x => decide (Q x))).map f).sum := by
  induction l with
  | nil => simp
  | cons a t ih =>
    by_cases hq : Q a
    · simp [List.filter_cons, hq, ih]
    · simp [List.filter_cons, hq, ih]

theorem borda_ballot_sum (ps : List Participant) (b : Ballot)
    (hnd : (getIds ps).Nodup)
    (hperm : b.ranking.Perm
      ((ps.filter (fun p => p.id ≠ b.voterId)).map (fun p => p.id))) :
    (ps.map (fun p =>
      if b.voterId = p.id then 0
      else if 0 < getRank b p.id then bordaPoints (getRank b p.id) (ps.length : ℤ)
      else 0)).sum = ∑ k ∈ Finset.range ps.length, (k : ℤ) := by
  have hmemrk : ∀ s, s ∈ b.ranking ↔ (s ∈ getIds ps ∧ s ≠ b.voterId) := by
    intro s
    rw [hperm.mem_iff]
    simp only [List.mem_map, List.mem_filter, decide_eq_true_eq, getIds]
    constructor
    · rintro ⟨p, ⟨hp, hpv⟩, rfl⟩
      exact ⟨⟨p, hp, rfl⟩, hpv⟩
    · rintro ⟨⟨p, hp, rfl⟩, hsv⟩
      exact ⟨p, ⟨hp, hsv⟩, rfl⟩
  have hpt : ∀ p ∈ ps, (if b.voterId = p.id then 0
      else if 0 < getRank b p.id then bordaPoints (getRank b p.id) (ps.length : ℤ)
      else 0) =
      (if p.id ∈ b.ranking then (ps.length : ℤ) - getRank b p.id else 0) := by
    intro p hp
    by_cases hvp : b.voterId = p.id
    · rw [if_pos hvp]
      have hnot : p.id ∉ b.ranking := by
        rw [hmemrk]
        rintro ⟨-, hne⟩
        exact hne hvp.symm
      rw [if_neg hnot]
    · rw [if_neg hvp]
      by_cases hr : 0 < getRank b p.id
      · rw [if_pos hr, if_pos ((getRank_pos_iff b p.id).mp hr)]
        rfl
      · rw [if_neg hr, if_neg (fun hm => hr ((getRank_pos_iff b p.id).mpr hm))]
  rw [List.map_congr_left hpt]
  have hmm : (ps.map (fun p =>
      if p.id ∈ b.ranking then (ps.length : ℤ) - getRank b p.id else 0)) =
      ((getIds ps).map (fun s =>
        if s ∈ b.ranking then (ps.length : ℤ) - getRank b s else 0)) := by
    rw [getIds, List.map_map]
    rfl
  rw [hmm, sum_ite_prop_int (getIds ps) (fun s => s ∈ b.ranking)
    (fun s => (ps.length : ℤ) - getRank b s)]
  have hfil : (getIds ps).filter (fun s => decide (s ∈ b.ranking)) =
      (getIds ps).filter (fun s => decide (s ≠ b.voterId)) := by
    apply List.filter_congr
    intro s hs
    simp only [decide_eq_decide]
    rw [hmemrk]
    constructor
    · rintro ⟨-, h2⟩
      exact h2
    · intro h2
      exact ⟨hs, h2⟩
  have hfm : (getIds ps).filter (fun s => decide (s ≠ b.voterId)) =
      ((ps.filter (fun p => p.id ≠ b.voterId)).map (fun p => p.id)) := by
    rw [getIds, List.filter_map]
    rfl
  rw [hfil, hfm]
  have hps : (((ps.filter (fun p => p.id ≠ b.voterId)).map (fun p => p.id)).map
      (fun s => (ps.length : ℤ) - getRank b s)).sum =
      (b.ranking.map (fun s => (ps.length : ℤ) - getRank b s)).sum :=
    (hperm.map _).sum_eq.symm
  rw [hps]
  have hnodup : b.ranking.Nodup := by
    rw [hperm.nodup_iff, ← hfm]
    exact List.Nodup.sublist (List.filter_sublist _) hnd
  rw [map_sub_getRank b hnodup]
  have hL : b.ranking.length = ((getIds ps).filter (fun s => decide (s ≠ b.voterId))).length := by
    rw [hperm.length_eq, ← hfm]
  apply sum_range_sub_int
  by_cases hvids : b.voterId ∈ getIds ps
  · right
    have hbne : (getIds ps).filter (fun s => decide (s ≠ b.voterId)) =
        (getIds ps).filter (fun x => x != b.voterId) :=
      List.filter_congr (fun x _ => by by_cases h : x = b.voterId <;> simp [h])
    rw [hL, hbne, ← hnd.erase_eq_filter b.voterId, List.length_erase_of_mem hvids, getIds_length]
    have hpos : 1 ≤ ps.length := by
      rcases ps with _ | ⟨p, t⟩
      · simp [getIds] at hvids
      · simp
    omega
  · left
    rw [hL, List.filter_eq_self.mpr ?_, getIds_length]
    intro s hs
    simp only [decide_eq_true_eq]
    intro he
    exact hvids (he ▸ hs)

/-- C9: when every ballot's ranking is a full permutation of the other
participants' ids (and ids are unique), the Borda scores sum to
`ballots.length × Σ_{k=0}^{n-1} k`: each ballot hands out `n - rank` points
over ranks `1..n-1`, i.e. `0 + 1 + ... + (n-1)` points in total. -/
theorem borda_sum_full_permutations (ballots : List Ballot) (ps : List Participant)
    (hnd : (getIds ps).Nodup)
    (hfull : ∀ b ∈ ballots, b.ranking.Perm
      ((ps.filter (fun p => p.id ≠ b.voterId)).map (fun p => p.id))) :
    ((computeBordaScores ballots ps).map (fun e => e.2)).sum =
      (ballots.length : ℤ) * (∑ k ∈ Finset.range ps.length, (k : ℤ)) := by
  have hstep : ((computeBordaScores ballots ps).map (fun e => e.2)).sum =
      (ps.map (fun p => (ballots.map (fun b =>
        if b.voterId = p.id then 0
        else if 0 < getRank b p.id then bordaPoints (getRank b p.id) (ps.length : ℤ)
        else 0)).sum)).sum := by
    rw [computeBordaScores_eq, List.map_map]
    rfl
  rw [hstep, sum_map_swap_int]
  have hball : ∀ b ∈ ballots, (ps.map (fun p =>
      if b.voterId = p.id then 0
      else if 0 < getRank b p.id then bordaPoints (getRank b p.id) (ps.length : ℤ)
      else 0)).sum = ∑ k ∈ Finset.range ps.length, (k : ℤ) :=
    fun b hb => borda_ballot_sum ps b hnd (hfull b hb)
  rw [List.map_congr_left hball, sum_map_const_int]

/-- C9 witness: in the identical-ballots scenario the Borda scores 9,7,5,3 sum
to `4 × (0+1+2+3) = 24`. -/
theorem borda_sum_full_permutations_witness :
    ((computeBordaScores idBallots idPs).map (fun e => e.2)).sum =
      (idBallots.length : ℤ) * (∑ k ∈ Finset.range idPs.length, (k : ℤ)) :=
  borda_sum_full_permutations idBallots idPs (by decide) (by decide)
